import Mathlib

/-!
Verification of the concurrency-primitives teaching harness of this
repository (src/w3/thread_demo.c and src/w6/thread_recitation.c): the
shared counter under four synchronization disciplines, the invariant
pair, the hand-rolled counting semaphore (`semc_t`), the race
amplification traces, and the reentrant / non-reentrant uppercase
formatters.  C `long` counters are modelled as `Nat`/`Int`; `size_t`
arithmetic is modelled with explicit `% 2^64` where underflow matters;
thread interleavings are modelled by an explicit schedule (a list of
thread ids / actions) driving a small-step machine, so "for every
interleaving" becomes a quantification over all schedules.
-/
namespace ThreadHarness

/-! ## Characters and C strings

`toupper` on ASCII (the inputs used by the programs are ASCII string
literals): lowercase letters are mapped to uppercase, everything else
is unchanged.  A C string stored in a buffer is the prefix up to the
first NUL byte. -/
/-- NUL byte, the C string terminator. -/
def nulChar : Char := Char.ofNat 0

/-- ASCII `toupper`, as used by both formatters via
`toupper((unsigned char)s[i])`. -/
def cToUpper (c : Char) : Char :=
  if 'a' ≤ c ∧ c ≤ 'z' then Char.ofNat (c.toNat - 32) else c

/-- Read a C string out of a buffer: the contents up to the first NUL. -/
def cString (buf : List Char) : List Char :=
  buf.takeWhile (fun c => c ≠ nulChar)

/-! ## Reentrant formatter (src/w6/thread_recitation.c, `upper_reentrant`)

```c
static void upper_reentrant(const char *s, char *out, size_t outcap) {
    if (!outcap) return;
    size_t n = strlen(s);
    if (n >= outcap) n = outcap - 1;
    for (size_t i = 0; i < n; i++)
        out[i] = (char)toupper((unsigned char)s[i]);
    out[n] = '\0';
}
```

The destination buffer is modelled as a `List Char` of its current
cells; the function returns the new cell contents.  `s` is the list of
characters of the NUL-terminated input (so `strlen s = s.length`,
which assumes `nulChar ∉ s` as for every C string). -/
/-- The `for` loop of `upper_reentrant`: write `toupper(s[i])` into
cell `i` for `i < n`. -/
def upperLoop (s : List Char) (n : Nat) (out : List Char) : List Char :=
  (List.range n).foldl (fun b i => b.set i (cToUpper (s.getD i nulChar))) out

/-- The function `upper_reentrant` from src/w6/thread_recitation.c: guarded against
`outcap = 0`, truncates to `outcap - 1` characters, NUL-terminates. -/
def upper_reentrant (s : List Char) (out : List Char) (outcap : Nat) : List Char :=
  if outcap = 0 then out
  else
    let n := s.length
    let n := if n ≥ outcap then outcap - 1 else n
    (upperLoop s n out).set n nulChar

/-! ## Non-reentrant formatter (src/w6/thread_recitation.c, `upper_not_reentrant`)

```c
static char *upper_not_reentrant(const char *s) {
    static char buf[64];
    size_t n = strlen(s);
    if (n >= sizeof(buf)) n = sizeof(buf) - 1;
    for (size_t i = 0; i < n; i++) {
        buf[i] = (char)toupper((unsigned char)s[i]);
        if ((i & 7) == 0) busy_spin(200);
    }
    buf[n] = '\0';
    return buf;
}
```

The single static buffer is state threaded through calls; the returned
pointer is always the address of that one static buffer, modelled by
the one-constructor type `Addr`.  (`busy_spin` touches no state.)
src/w3/thread_demo.c's `not_reentrant_upper` is byte-for-byte the same
algorithm on its own static 64-byte buffer. -/
/-- The address value a formatter call hands back: every call to the
non-reentrant formatter returns the address of the one static buffer. -/
inductive Addr where
  | staticBuf
deriving DecidableEq, Repr

/-- Capacity of the static buffer (`static char buf[64]`). -/
def staticBufCap : Nat := 64

/-- Static storage is zero-initialized: 64 NUL bytes. -/
def staticBufInit : List Char := List.replicate staticBufCap nulChar

/-- The function `upper_not_reentrant`: takes the current static buffer contents,
returns the pointer (always the same static address) and the new
buffer contents. -/
def upper_not_reentrant (s : List Char) (buf : List Char) : Addr × List Char :=
  let n := s.length
  let n := if n ≥ staticBufCap then staticBufCap - 1 else n
  (Addr.staticBuf, (upperLoop s n buf).set n nulChar)

/-! ## The w3 reentrant formatter's missing zero-capacity guard
(src/w3/thread_demo.c, `reentrant_upper`)

```c
static void reentrant_upper(const char *s, char *out, size_t outcap) {
    size_t n = strlen(s);
    if (n >= outcap) n = outcap - 1;
    for (size_t i = 0; i < n; i++) out[i] = (char)toupper((unsigned char)s[i]);
    out[n] = '\0';
}
```

There is no `if (!outcap) return;` guard, and `n` is a `size_t`, so
with `outcap = 0` the truncation step computes `0 - 1`, which wraps to
`2^64 - 1`.  We model only the set of cells the call stores to: it
writes `out[i]` for every `i < n` and then `out[n]`, so the written
indices are exactly `{0, …, n}` (none when the w6 guard fires). -/
/-- Modulus of `size_t`. -/
def sizeTMod : Nat := 2 ^ 64

/-- The truncated length `n` computed by w3's `reentrant_upper`, with
`size_t` wraparound on `outcap - 1`. -/
def w3ReentrantUpperN (slen outcap : Nat) : Nat :=
  if slen ≥ outcap then (outcap + sizeTMod - 1) % sizeTMod else slen

/-- Number of cells w3's `reentrant_upper` stores through `out`:
indices `0, …, n-1` in the loop plus the terminator at index `n`. -/
def w3ReentrantUpperWriteCount (s : List Char) (outcap : Nat) : Nat :=
  w3ReentrantUpperN s.length outcap + 1

/-- Number of cells w6's guarded `upper_reentrant` stores through
`out` (0 when the `!outcap` guard returns early). -/
def w6ReentrantUpperWriteCount (s : List Char) (outcap : Nat) : Nat :=
  if outcap = 0 then 0
  else (if s.length ≥ outcap then outcap - 1 else s.length) + 1

/-! ## Per-iteration race-amplification traces (claim C5)

Abstract shared-memory/scheduler events of one loop iteration of an
unsynchronized worker, in program order. -/
/-- The shared fields an unsynchronized worker touches. -/
inductive SharedVar where
  /-- the global `counter` -/
  | counter
  /-- field `pair_vals.a` -/
  | pairA
  /-- field `pair_vals.b` -/
  | pairB
deriving DecidableEq, Repr

/-- One observable event of an amplified update cycle. -/
inductive AmpStep where
  /-- read a shared field into a local -/
  | read (v : SharedVar)
  /-- a `sched_yield()` call -/
  | yieldStep
  /-- a `busy_spin(n)` call / a volatile spin loop of `n` rounds -/
  | spin (n : Nat)
  /-- increment the local copy of a shared field -/
  | modify (v : SharedVar)
  /-- write the local back to a shared field -/
  | write (v : SharedVar)
  /-- compare two shared fields (the pair worker's violation check) -/
  | check (v1 v2 : SharedVar)
deriving DecidableEq, Repr

/-- Events of iteration `i` of `inc_no_lock`
(src/w6/thread_recitation.c):
read; yield if `(i & 0x3FF) == 0`; spin 50; modify; yield if
`(i & 0x7FF) == 0`; write. -/
def incNoLockIter (i : Nat) : List AmpStep :=
  [AmpStep.read SharedVar.counter]
    ++ (if i % 1024 = 0 then [AmpStep.yieldStep] else [])
    ++ [AmpStep.spin 50, AmpStep.modify SharedVar.counter]
    ++ (if i % 2048 = 0 then [AmpStep.yieldStep] else [])
    ++ [AmpStep.write SharedVar.counter]

/-- Events of iteration `i` of `increment_without_lock_stressed`
(src/w3/thread_demo.c): read; yield if `(i & 0x3FF) == 0`; volatile
spin of 50; modify; yield if `(i & 0x7FF) == 0`; write. -/
def stressedIter (i : Nat) : List AmpStep :=
  [AmpStep.read SharedVar.counter]
    ++ (if i % 1024 = 0 then [AmpStep.yieldStep] else [])
    ++ [AmpStep.spin 50, AmpStep.modify SharedVar.counter]
    ++ (if i % 2048 = 0 then [AmpStep.yieldStep] else [])
    ++ [AmpStep.write SharedVar.counter]

/-- Events of iteration `i` of `touch_pair_without_lock`
(src/w3/thread_demo.c): read `a`; read `b`; yield if
`(i & 0x1FF) == 0`; modify both; yield if `(i & 0x3FF) == 0`; write
both back; compare `a` with `b`.  No busy-wait anywhere. -/
def touchPairIter (i : Nat) : List AmpStep :=
  [AmpStep.read SharedVar.pairA, AmpStep.read SharedVar.pairB]
    ++ (if i % 512 = 0 then [AmpStep.yieldStep] else [])
    ++ [AmpStep.modify SharedVar.pairA, AmpStep.modify SharedVar.pairB]
    ++ (if i % 1024 = 0 then [AmpStep.yieldStep] else [])
    ++ [AmpStep.write SharedVar.pairA, AmpStep.write SharedVar.pairB,
        AmpStep.check SharedVar.pairA SharedVar.pairB]

/-! ## Gate-guarded counter workers (claims C1, C4)

One small-step machine covers `increment_with_lock`
(src/w3/thread_demo.c), `inc_with_lock` and `inc_with_sem_binary`
(src/w6/thread_recitation.c) — a gate with one permit, where a pthread
mutex `lock`/`unlock` and `semc_wait`/`semc_post` on a one-permit
semaphore both mean "take the single permit / put it back" — and
`inc_with_sem_three` (gate with three permits).  The guarded body is
the non-atomic load → add → store of `counter++` / the explicit
`tmp = counter; busy_spin(30); counter = tmp + 1` (the spin touches no
shared state, so it is the read→write gap itself).  A worker is a
program counter plus its local `tmp` and its completed iteration
count; a schedule is a list of thread ids, and scheduling a thread
runs its next atomic action (a no-op when it is finished or blocked on
the gate). -/
/-- Worker-local state.  `pc` values:
0 = at the loop head (finish, or block on / acquire the gate),
1 = gate acquired, about to read `counter` into `tmp`,
2 = read done, about to write `tmp + 1` back,
3 = write done, about to release the gate and finish the iteration. -/
structure CtrTh where
  pc : Nat
  tmp : Nat
  iters : Nat
deriving DecidableEq, Repr

/-- Global state of a guarded-counter scenario: the shared counter,
the gate's current permit count, and the `W` workers. -/
structure CtrState (W : Nat) where
  counter : Nat
  gate : Nat
  th : Fin W → CtrTh

/-- The next atomic action of worker `t`: no-op when it has done all
`K` iterations or the gate has no permit; otherwise acquire / read /
write / release according to its pc. -/
def ctrStep (K : Nat) {W : Nat} (s : CtrState W) (t : Fin W) : CtrState W :=
  if (s.th t).pc = 0 then
    if (s.th t).iters = K then s
    else if 0 < s.gate then
      { s with gate := s.gate - 1, th := Function.update s.th t { s.th t with pc := 1 } }
    else s
  else if (s.th t).pc = 1 then
    { s with th := Function.update s.th t { s.th t with pc := 2, tmp := s.counter } }
  else if (s.th t).pc = 2 then
    { s with counter := (s.th t).tmp + 1,
             th := Function.update s.th t { s.th t with pc := 3 } }
  else
    { s with gate := s.gate + 1,
             th := Function.update s.th t
               { s.th t with pc := 0, iters := (s.th t).iters + 1 } }

/-- Run a schedule (ids ≥ W are ignored). -/
def ctrRun (K : Nat) {W : Nat} (sched : List Nat) (s : CtrState W) : CtrState W :=
  sched.foldl (fun s n => if h : n < W then ctrStep K s ⟨n, h⟩ else s) s

/-- Initial state of a scenario: counter reset to 0, gate holding `P`
permits (`pthread_mutex` / `semc_init(&sem,1)` / `semc_init(&sem,3)`),
every worker at its loop head. -/
def ctrInit (W P : Nat) : CtrState W :=
  { counter := 0, gate := P, th := fun _ => ⟨0, 0, 0⟩ }

/-- All workers have joined: each is back at its loop head with all
`K` iterations completed. -/
def CtrAllDone (K : Nat) {W : Nat} (s : CtrState W) : Prop :=
  ∀ t, (s.th t).pc = 0 ∧ (s.th t).iters = K

instance (K : Nat) {W : Nat} (s : CtrState W) : Decidable (CtrAllDone K s) :=
  inferInstanceAs (Decidable (∀ _, _ ∧ _))

/-- A worker's contribution to the shared counter: its completed
iterations, plus one for a write it has performed in its current
iteration (pc = 3). -/
def ctrContrib (u : CtrTh) : Nat :=
  u.iters + (if u.pc = 3 then 1 else 0)

/-- Inductive invariant of the one-permit (mutex / binary-semaphore)
scenarios: the counter equals the summed contributions, and either the
permit is free and every worker is at its loop head, or exactly one
worker holds it — and if that holder has read but not yet written, its
local `tmp` is still the current counter value. -/
def CtrInv (K : Nat) {W : Nat} (s : CtrState W) : Prop :=
  (∀ t, (s.th t).pc ≤ 3) ∧
  s.counter = ∑ t, ctrContrib (s.th t) ∧
  ((s.gate = 1 ∧ ∀ t, (s.th t).pc = 0) ∨
   (s.gate = 0 ∧ ∃ t, (s.th t).pc ≠ 0 ∧ (∀ u, u ≠ t → (s.th u).pc = 0) ∧
      ((s.th t).pc = 2 → (s.th t).tmp = s.counter)))

/-! ## Mutex-guarded invariant-pair workers (claim C6)

`touch_pair_with_lock` (src/w3/thread_demo.c): each iteration takes
the mutex, increments `pair_vals.a`, occasionally spins (stateless),
increments `pair_vals.b`, and releases the mutex.  Each `++` is a
non-atomic load → add → store, giving six atomic actions per
iteration. -/
/-- Worker-local state for the pair scenario.  `pc` values:
0 = loop head (finish, or block on / acquire the mutex),
1 = lock held, about to read `pair_vals.a` into `ta`,
2 = about to write `ta + 1` back to `pair_vals.a`,
3 = about to read `pair_vals.b` into `tb` (the occasional spin between
    the increments touches no shared state),
4 = about to write `tb + 1` back to `pair_vals.b`,
5 = about to unlock and finish the iteration. -/
structure PairTh where
  pc : Nat
  ta : Nat
  tb : Nat
  iters : Nat
deriving DecidableEq, Repr

/-- Global state of the mutex-guarded pair scenario. -/
structure PairState (W : Nat) where
  a : Nat
  b : Nat
  gate : Nat
  th : Fin W → PairTh

/-- Next atomic action of pair worker `t`. -/
def pairStep (K : Nat) {W : Nat} (s : PairState W) (t : Fin W) : PairState W :=
  if (s.th t).pc = 0 then
    if (s.th t).iters = K then s
    else if 0 < s.gate then
      { s with gate := s.gate - 1, th := Function.update s.th t { s.th t with pc := 1 } }
    else s
  else if (s.th t).pc = 1 then
    { s with th := Function.update s.th t { s.th t with pc := 2, ta := s.a } }
  else if (s.th t).pc = 2 then
    { s with a := (s.th t).ta + 1, th := Function.update s.th t { s.th t with pc := 3 } }
  else if (s.th t).pc = 3 then
    { s with th := Function.update s.th t { s.th t with pc := 4, tb := s.b } }
  else if (s.th t).pc = 4 then
    { s with b := (s.th t).tb + 1, th := Function.update s.th t { s.th t with pc := 5 } }
  else
    { s with gate := s.gate + 1,
             th := Function.update s.th t
               { s.th t with pc := 0, iters := (s.th t).iters + 1 } }

/-- Run a schedule of thread ids (ids ≥ W are ignored). -/
def pairRun (K : Nat) {W : Nat} (sched : List Nat) (s : PairState W) : PairState W :=
  sched.foldl (fun s n => if h : n < W then pairStep K s ⟨n, h⟩ else s) s

/-- Initially `pair_vals.a = pair_vals.b = 0`, mutex free, workers at loop head. -/
def pairInit (W : Nat) : PairState W :=
  { a := 0, b := 0, gate := 1, th := fun _ => ⟨0, 0, 0, 0⟩ }

/-- All pair workers have joined. -/
def PairAllDone (K : Nat) {W : Nat} (s : PairState W) : Prop :=
  ∀ t, (s.th t).pc = 0 ∧ (s.th t).iters = K

instance (K : Nat) {W : Nat} (s : PairState W) : Decidable (PairAllDone K s) :=
  inferInstanceAs (Decidable (∀ _, _ ∧ _))

/-- Inductive invariant of the mutex-guarded pair scenario: either the
mutex is free, everyone is at the loop head and `a = b`, or exactly
one worker holds it; the holder's locals mirror the shared fields at
its read-done points, and `a` exceeds `b` by one exactly between the
two guarded increments. -/
def PairInv {W : Nat} (s : PairState W) : Prop :=
  (∀ t, (s.th t).pc ≤ 5) ∧
  ((s.gate = 1 ∧ (∀ t, (s.th t).pc = 0) ∧ s.a = s.b) ∨
   (s.gate = 0 ∧ ∃ t, (s.th t).pc ≠ 0 ∧ (∀ u, u ≠ t → (s.th u).pc = 0) ∧
      ((s.th t).pc = 2 → (s.th t).ta = s.a) ∧
      ((s.th t).pc = 4 → (s.th t).tb = s.b) ∧
      (if (s.th t).pc = 3 ∨ (s.th t).pc = 4 then s.a = s.b + 1 else s.a = s.b)))

/-! ## The counting semaphore in isolation (claims C2, C3)

`semc_t` (src/w6/thread_recitation.c):

```c
typedef struct { int count; pthread_mutex_t m; pthread_cond_t cv; } semc_t;
static void semc_wait(semc_t *s) {
    pthread_mutex_lock(&s->m);
    while (s->count == 0) pthread_cond_wait(&s->cv, &s->m);
    s->count--;
    pthread_mutex_unlock(&s->m);
}
static void semc_post(semc_t *s) {
    pthread_mutex_lock(&s->m);
    s->count++;
    pthread_cond_signal(&s->cv);
    pthread_mutex_unlock(&s->m);
}
```

Everything between taking and dropping the internal mutex `m` is one
critical section, so the concurrency-visible task states are exactly
the mutex boundaries: a task is `idle` (outside `semc_wait`),
`sleeping` (parked in `pthread_cond_wait`, `m` released), `woken`
(signalled, about to re-take `m` and re-run the `while` test), or
`holding` (it completed `semc_wait` and owns a permit).  One
`semc_wait` entry or `while`-test re-run is therefore one atomic
action: test `count == 0`, and either park or decrement and return.
`count` is a C `int`, modelled as `Int` so that "never negative" is a
real statement.  A `semc_post` is the atomic action: increment
`count`, then `pthread_cond_signal` wakes a waiter — the signalled
waiter is an arbitrary sleeper, so the action carries the scheduler's
choice `w` (used when it names a sleeper, with the first sleeper as
fallback), and nobody is woken when nobody sleeps.  `semc_post` does
not check ownership: any task may issue it. -/
/-- Concurrency-visible state of a task with respect to the semaphore. -/
inductive SemTh where
  | idle
  | sleeping
  | woken
  | holding
deriving DecidableEq, Repr

/-- The semaphore's permit count plus each task's state. -/
structure SemState (W : Nat) where
  count : Int
  th : Fin W → SemTh

/-- An action of the interleaving: task `t` runs the next atomic
section of `semc_wait`, or task `t` runs `semc_post` whose
`pthread_cond_signal` lands on choice `w`. -/
inductive SemAct where
  | acq (t : Nat)
  | rel (t : Nat) (w : Nat)
deriving DecidableEq, Repr

/-- The sleepers, in index order. -/
def sleepers {W : Nat} (s : SemState W) : List (Fin W) :=
  (List.finRange W).filter (fun u => s.th u = SemTh.sleeping)

/-- Which sleeper `pthread_cond_signal` wakes: the scheduler's choice
`w` when `w` names a sleeper, otherwise the first sleeper; nobody when
nobody is sleeping. -/
def wakeChoice {W : Nat} (s : SemState W) (w : Nat) : Option (Fin W) :=
  if h : w < W then
    if s.th ⟨w, h⟩ = SemTh.sleeping then some ⟨w, h⟩ else (sleepers s).head?
  else (sleepers s).head?

/-- The first half of `semc_post`'s critical section: `count++`, and a
releasing holder no longer holds a permit (`semc_post` itself checks
no ownership: any task's post increments the count). -/
def semPostCore {W : Nat} (s : SemState W) (t : Fin W) : SemState W :=
  { s with count := s.count + 1,
           th := Function.update s.th t
             (if s.th t = SemTh.holding then SemTh.idle else s.th t) }

/-- One atomic action of the semaphore machine. -/
def semStep {W : Nat} (s : SemState W) (a : SemAct) : SemState W :=
  match a with
  | SemAct.acq n =>
    if h : n < W then
      match s.th ⟨n, h⟩ with
      | SemTh.idle | SemTh.woken =>
        -- one critical section of semc_wait: test the predicate,
        -- then either park on the cv or take a permit
        if s.count = 0 then
          { s with th := Function.update s.th ⟨n, h⟩ SemTh.sleeping }
        else
          { s with count := s.count - 1,
                   th := Function.update s.th ⟨n, h⟩ SemTh.holding }
      | SemTh.sleeping => s  -- parked until signalled
      | SemTh.holding => s   -- already through semc_wait
    else s
  | SemAct.rel n w =>
    if h : n < W then
      match wakeChoice (semPostCore s ⟨n, h⟩) w with
      | some u =>
        { semPostCore s ⟨n, h⟩ with
          th := Function.update (semPostCore s ⟨n, h⟩).th u SemTh.woken }
      | none => semPostCore s ⟨n, h⟩
    else s

/-- Run a list of actions. -/
def semRun {W : Nat} (sched : List SemAct) (s : SemState W) : SemState W :=
  sched.foldl semStep s

/-- State after `semc_init`: count set to the initial permit count, all tasks
outside the semaphore. -/
def semInit (W : Nat) (c : Int) : SemState W :=
  { count := c, th := fun _ => SemTh.idle }

/-- Number of tasks currently holding a permit. -/
def holders {W : Nat} (s : SemState W) : Nat :=
  (Finset.univ.filter (fun u => s.th u = SemTh.holding)).card

/-- A schedule that only runs `semc_wait` sections (no posts). -/
def AcqOnly (sched : List SemAct) : Prop :=
  ∀ a ∈ sched, ∃ n, a = SemAct.acq n

/-! ## Claim C10: the unsynchronized pair worker's early return

`touch_pair_without_lock` (src/w3/thread_demo.c): each iteration
updates both fields through locals and then re-reads the shared pair;
if the re-read shows `a != b` the worker returns `(void*)1` at once.
The shared values it observes at the iteration-`i` check are supplied
by an oracle `chk` (they depend on the other workers' interleaved
writes).  The model returns the pair (completed update cycles, return
value), with return value 1 for a detected violation and 0 for the
`NULL` of a full run. -/
/-- The worker's loop from iteration `i` with `rem` iterations left:
run the update body, then check the oracle's view of the pair. -/
def pairWorkerGo (chk : Nat → Int × Int) : Nat → Nat → Nat × Nat
  | i, 0 => (i, 0)
  | i, rem + 1 =>
    if (chk i).1 ≠ (chk i).2 then (i + 1, 1)
    else pairWorkerGo chk (i + 1) rem

/-- A full worker: `K` iterations from iteration 0. -/
def pairWorker (K : Nat) (chk : Nat → Int × Int) : Nat × Nat :=
  pairWorkerGo chk 0 K

/-- The Bonus A join loop of src/w3/thread_demo.c: `broke` starts 0
and is set to 1 by any joined return value equal to 1. -/
def bonusABroke (rets : List Nat) : Nat :=
  rets.foldl (fun broke r => if r = 1 then 1 else broke) 0

/-! ## Theorems -/

/-- Summing a function after updating one coordinate: additive form
of "the sum changes by the change at that coordinate". -/
theorem sum_comp_update {α γ : Type*} [Fintype α] [DecidableEq α]
    (g : γ → Nat) (f : α → γ) (t : α) (b : γ) :
    (∑ u, g (Function.update f t b u)) + g (f t) = (∑ u, g (f u)) + g b := by
  rw [← Finset.add_sum_erase Finset.univ (fun u => g (Function.update f t b u))
      (Finset.mem_univ t),
    ← Finset.add_sum_erase Finset.univ (fun u => g (f u)) (Finset.mem_univ t)]
  have he : ∑ u ∈ Finset.univ.erase t, g (Function.update f t b u)
      = ∑ u ∈ Finset.univ.erase t, g (f u) := by
    refine Finset.sum_congr rfl fun u hu => ?_
    rw [Function.update_noteq (Finset.mem_erase.mp hu).1]
  rw [Function.update_same, he]
  omega

/-- The one-permit invariant holds initially. -/
theorem ctrInv_init (W K : Nat) : CtrInv K (ctrInit W 1) := by
  refine ⟨fun t => by simp [ctrInit], ?_, Or.inl ⟨rfl, fun t => rfl⟩⟩
  simp [ctrInit, ctrContrib]

/-- The one-permit invariant is preserved by every atomic action. -/
theorem ctrInv_step (K : Nat) {W : Nat} (s : CtrState W) (t : Fin W)
    (h : CtrInv K s) : CtrInv K (ctrStep K s t) := by
  obtain ⟨hpc, hsum, hgate⟩ := h
  unfold ctrStep
  split_ifs with h0 hK hg h1 h2
  · exact ⟨hpc, hsum, hgate⟩
  -- acquire: pc 0 → 1, gate 1 → 0
  · rcases hgate with ⟨hg1, hall⟩ | ⟨hg0, _⟩
    · refine ⟨?_, ?_, Or.inr ⟨show s.gate - 1 = 0 by omega, t, ?_, ?_, ?_⟩⟩
      · intro v
        by_cases hv : v = t
        · subst hv; simp
        · simpa [Function.update_noteq hv] using hpc v
      · show s.counter = ∑ v, ctrContrib (Function.update s.th t { s.th t with pc := 1 } v)
        have key := sum_comp_update ctrContrib s.th t { s.th t with pc := 1 }
        have hcb : ctrContrib { s.th t with pc := 1 } = (s.th t).iters := by
          simp [ctrContrib]
        have hcu : ctrContrib (s.th t) = (s.th t).iters := by
          simp [ctrContrib, h0]
        rw [hcb, hcu] at key
        omega
      · simp
      · intro u hu
        simpa [Function.update_noteq hu] using hall u
      · simp
    · omega
  · exact ⟨hpc, hsum, hgate⟩
  -- read: pc 1 → 2, tmp := counter
  · rcases hgate with ⟨_, hall⟩ | ⟨hg0, t', ht', hothers, _⟩
    · exact absurd (hall t) h0
    · have htt : t = t' := by
        by_contra hne
        exact h0 (hothers t hne)
      subst htt
      refine ⟨?_, ?_, Or.inr ⟨hg0, t, by simp, ?_, ?_⟩⟩
      · intro v
        by_cases hv : v = t
        · subst hv; simp
        · simpa [Function.update_noteq hv] using hpc v
      · show s.counter
            = ∑ v, ctrContrib (Function.update s.th t
                { s.th t with pc := 2, tmp := s.counter } v)
        have key := sum_comp_update ctrContrib s.th t
          { s.th t with pc := 2, tmp := s.counter }
        have hcb : ctrContrib { s.th t with pc := 2, tmp := s.counter }
            = (s.th t).iters := by simp [ctrContrib]
        have hcu : ctrContrib (s.th t) = (s.th t).iters := by
          simp [ctrContrib, h1]
        rw [hcb, hcu] at key
        omega
      · intro u hu
        simpa [Function.update_noteq hu] using hothers u hu
      · intro _
        simp
  -- write: counter := tmp + 1, pc 2 → 3
  · rcases hgate with ⟨_, hall⟩ | ⟨hg0, t', ht', hothers, htmp⟩
    · exact absurd (hall t) h0
    · have htt : t = t' := by
        by_contra hne
        exact h0 (hothers t hne)
      subst htt
      have htc : (s.th t).tmp = s.counter := htmp h2
      refine ⟨?_, ?_, Or.inr ⟨hg0, t, by simp, ?_, ?_⟩⟩
      · intro v
        by_cases hv : v = t
        · subst hv; simp
        · simpa [Function.update_noteq hv] using hpc v
      · show (s.th t).tmp + 1
            = ∑ v, ctrContrib (Function.update s.th t { s.th t with pc := 3 } v)
        have key := sum_comp_update ctrContrib s.th t { s.th t with pc := 3 }
        have hcb : ctrContrib { s.th t with pc := 3 } = (s.th t).iters + 1 := by
          simp [ctrContrib]
        have hcu : ctrContrib (s.th t) = (s.th t).iters := by
          simp [ctrContrib, h2]
        rw [hcb, hcu] at key
        omega
      · intro u hu
        simpa [Function.update_noteq hu] using hothers u hu
      · intro hcontra
        simp at hcontra
  -- release: gate += 1, pc 3 → 0, iters += 1
  · rcases hgate with ⟨_, hall⟩ | ⟨hg0, t', ht', hothers, _⟩
    · exact absurd (hall t) h0
    · have htt : t = t' := by
        by_contra hne
        exact h0 (hothers t hne)
      subst htt
      have h3 : (s.th t).pc = 3 := by
        have := hpc t
        omega
      refine ⟨?_, ?_, Or.inl ⟨show s.gate + 1 = 1 by omega, ?_⟩⟩
      · intro v
        by_cases hv : v = t
        · subst hv; simp
        · simpa [Function.update_noteq hv] using hpc v
      · show s.counter
            = ∑ v, ctrContrib (Function.update s.th t
                { s.th t with pc := 0, iters := (s.th t).iters + 1 } v)
        have key := sum_comp_update ctrContrib s.th t
          { s.th t with pc := 0, iters := (s.th t).iters + 1 }
        have hcb : ctrContrib { s.th t with pc := 0, iters := (s.th t).iters + 1 }
            = (s.th t).iters + 1 := by simp [ctrContrib]
        have hcu : ctrContrib (s.th t) = (s.th t).iters + 1 := by
          simp [ctrContrib, h3]
        rw [hcb, hcu] at key
        omega
      · intro v
        by_cases hv : v = t
        · subst hv; simp
        · simpa [Function.update_noteq hv] using hothers v hv

/-- The one-permit invariant holds after running any schedule. -/
theorem ctrInv_run (K : Nat) {W : Nat} (sched : List Nat) (s : CtrState W)
    (h : CtrInv K s) : CtrInv K (ctrRun K sched s) := by
  induction sched generalizing s with
  | nil => exact h
  | cons n rest ih =>
    have hstep : ctrRun K (n :: rest) s
        = ctrRun K rest (if hn : n < W then ctrStep K s ⟨n, hn⟩ else s) := rfl
    rw [hstep]
    by_cases hn : n < W
    · rw [dif_pos hn]
      exact ih _ (ctrInv_step K s ⟨n, hn⟩ h)
    · rw [dif_neg hn]
      exact ih _ h

/-- With one permit in the gate, any schedule after which all workers
have joined leaves the counter at exactly `W * K`. -/
theorem ctr_counter_of_allDone {W : Nat} (K : Nat) (sched : List Nat)
    (h : CtrAllDone K (ctrRun K sched (ctrInit W 1))) :
    (ctrRun K sched (ctrInit W 1)).counter = W * K := by
  obtain ⟨-, hsum, -⟩ := ctrInv_run K sched (ctrInit W 1) (ctrInv_init W K)
  rw [hsum]
  have hc : ∀ t, ctrContrib ((ctrRun K sched (ctrInit W 1)).th t) = K := by
    intro t
    obtain ⟨hpc0, hit⟩ := h t
    simp [ctrContrib, hpc0, hit]
  rw [Finset.sum_congr rfl fun t _ => hc t]
  simp [Finset.sum_const, Finset.card_univ, mul_comm]

/-- C1: for the mutex-guarded and binary-semaphore-guarded counter
scenarios (one-permit gate), for every worker count `W ≥ 1` and
iteration count `K ≥ 1` and every interleaving after which all workers
have joined, the shared counter equals exactly `W * K`:
the one permit makes each guarded read → write section exclusive. -/
theorem guarded_counter_exact (W K : Nat) (sched : List Nat)
    (hW : 1 ≤ W) (hK : 1 ≤ K)
    (h : CtrAllDone K (ctrRun K sched (ctrInit W 1))) :
    (ctrRun K sched (ctrInit W 1)).counter = W * K :=
  ctr_counter_of_allDone K sched h

theorem guarded_counter_exact_witness :
    CtrAllDone 1 (ctrRun 1 [0, 0, 0, 0] (ctrInit 1 1)) ∧
    (ctrRun 1 [0, 0, 0, 0] (ctrInit 1 1)).counter = 1 * 1 :=
  ⟨by decide,
   guarded_counter_exact 1 1 [0, 0, 0, 0] (by decide) (by decide) (by decide)⟩

/-- C4: a three-permit semaphore does not provide mutual exclusion:
there is an interleaving with `W ≥ 2` workers in which all workers
join yet the final counter is strictly below `W * K` (a lost update),
whereas with one permit the mismatch cannot occur under any
interleaving. -/
theorem three_permit_lost_update_one_permit_exact :
    (∃ W K sched, 2 ≤ W ∧ 1 ≤ K ∧
        CtrAllDone K (ctrRun K sched (ctrInit W 3)) ∧
        (ctrRun K sched (ctrInit W 3)).counter < W * K) ∧
    (∀ W K : Nat, ∀ sched : List Nat,
        CtrAllDone K (ctrRun K sched (ctrInit W 1)) →
        (ctrRun K sched (ctrInit W 1)).counter = W * K) :=
  ⟨⟨2, 1, [0, 1, 0, 1, 0, 1, 0, 1], by decide, by decide, by decide, by decide⟩,
   fun _ K sched h => ctr_counter_of_allDone K sched h⟩

/-- The pair invariant holds initially. -/
theorem pairInv_init (W : Nat) : PairInv (pairInit W) := by
  exact ⟨fun t => by simp [pairInit], Or.inl ⟨rfl, fun t => rfl, rfl⟩⟩

/-- The pair invariant is preserved by every atomic action. -/
theorem pairInv_step (K : Nat) {W : Nat} (s : PairState W) (t : Fin W)
    (h : PairInv s) : PairInv (pairStep K s t) := by
  obtain ⟨hpc, hgate⟩ := h
  have hle : ∀ (v : PairTh),
      (∀ u, (s.th u).pc ≤ 5) → v.pc ≤ 5 →
      ∀ u, ((Function.update s.th t v) u).pc ≤ 5 := by
    intro v hall hv u
    by_cases hu : u = t
    · subst hu; simpa using hv
    · simpa [Function.update_noteq hu] using hall u
  unfold pairStep
  split_ifs with h0 hK hg h1 h2 h3 h4
  · exact ⟨hpc, hgate⟩
  -- acquire
  · rcases hgate with ⟨hg1, hall, hab⟩ | ⟨hg0, _⟩
    · refine ⟨hle _ hpc (by simp) , Or.inr ⟨show s.gate - 1 = 0 by omega,
        t, by simp, ?_, by simp, by simp, ?_⟩⟩
      · intro u hu
        simpa [Function.update_noteq hu] using hall u
      · simpa using hab
    · omega
  · exact ⟨hpc, hgate⟩
  -- read a
  · rcases hgate with ⟨_, hall, _⟩ | ⟨hg0, t', ht', hothers, hta, htb, hif⟩
    · exact absurd (hall t) h0
    · have htt : t = t' := by
        by_contra hne
        exact h0 (hothers t hne)
      subst htt
      refine ⟨hle _ hpc (by simp), Or.inr ⟨hg0, t, by simp, ?_, by simp, ?_, ?_⟩⟩
      · intro u hu
        simpa [Function.update_noteq hu] using hothers u hu
      · intro hcontra
        simp at hcontra
      · simpa using by simpa [h1] using hif
  -- write a
  · rcases hgate with ⟨_, hall, _⟩ | ⟨hg0, t', ht', hothers, hta, htb, hif⟩
    · exact absurd (hall t) h0
    · have htt : t = t' := by
        by_contra hne
        exact h0 (hothers t hne)
      subst htt
      have hta' : (s.th t).ta = s.a := hta h2
      have hab : s.a = s.b := by simpa [h2] using hif
      refine ⟨hle _ hpc (by simp), Or.inr ⟨hg0, t, by simp, ?_, by simp,
        by simp, ?_⟩⟩
      · intro u hu
        simpa [Function.update_noteq hu] using hothers u hu
      · simpa using by omega
  -- read b
  · rcases hgate with ⟨_, hall, _⟩ | ⟨hg0, t', ht', hothers, hta, htb, hif⟩
    · exact absurd (hall t) h0
    · have htt : t = t' := by
        by_contra hne
        exact h0 (hothers t hne)
      subst htt
      have hab : s.a = s.b + 1 := by simpa [h3] using hif
      refine ⟨hle _ hpc (by simp), Or.inr ⟨hg0, t, by simp, ?_, ?_, ?_, ?_⟩⟩
      · intro u hu
        simpa [Function.update_noteq hu] using hothers u hu
      · intro hcontra
        simp at hcontra
      · intro _
        simp
      · simpa using hab
  -- write b
  · rcases hgate with ⟨_, hall, _⟩ | ⟨hg0, t', ht', hothers, hta, htb, hif⟩
    · exact absurd (hall t) h0
    · have htt : t = t' := by
        by_contra hne
        exact h0 (hothers t hne)
      subst htt
      have htb' : (s.th t).tb = s.b := htb h4
      have hab : s.a = s.b + 1 := by simpa [h4] using hif
      refine ⟨hle _ hpc (by simp), Or.inr ⟨hg0, t, by simp, ?_, by simp,
        by simp, ?_⟩⟩
      · intro u hu
        simpa [Function.update_noteq hu] using hothers u hu
      · simpa using by omega
  -- release
  · rcases hgate with ⟨_, hall, _⟩ | ⟨hg0, t', ht', hothers, hta, htb, hif⟩
    · exact absurd (hall t) h0
    · have htt : t = t' := by
        by_contra hne
        exact h0 (hothers t hne)
      subst htt
      have h5 : (s.th t).pc = 5 := by
        have := hpc t
        omega
      have hab : s.a = s.b := by simpa [h5] using hif
      refine ⟨hle _ hpc (by simp), Or.inl ⟨show s.gate + 1 = 1 by omega, ?_, hab⟩⟩
      intro v
      by_cases hv : v = t
      · subst hv; simp
      · simpa [Function.update_noteq hv] using hothers v hv

/-- The pair invariant holds after running any schedule. -/
theorem pairInv_run (K : Nat) {W : Nat} (sched : List Nat) (s : PairState W)
    (h : PairInv s) : PairInv (pairRun K sched s) := by
  induction sched generalizing s with
  | nil => exact h
  | cons n rest ih =>
    have hstep : pairRun K (n :: rest) s
        = pairRun K rest (if hn : n < W then pairStep K s ⟨n, hn⟩ else s) := rfl
    rw [hstep]
    by_cases hn : n < W
    · rw [dif_pos hn]
      exact ih _ (pairInv_step K s ⟨n, hn⟩ h)
    · rw [dif_neg hn]
      exact ih _ h

/-- C6: under the mutex-guarded invariant-pair variant (`a` then `b`
incremented inside one held lock), `a = b` holds after every worker
joins, for all worker counts, iteration counts and interleavings,
starting from `a = b = 0`. -/
theorem pair_with_lock_invariant (W K : Nat) (sched : List Nat)
    (h : PairAllDone K (pairRun K sched (pairInit W))) :
    (pairRun K sched (pairInit W)).a = (pairRun K sched (pairInit W)).b := by
  obtain ⟨-, hgate⟩ := pairInv_run K sched (pairInit W) (pairInv_init W)
  rcases hgate with ⟨-, -, hab⟩ | ⟨-, t, ht, -⟩
  · exact hab
  · exact absurd (h t).1 ht

theorem pair_with_lock_invariant_witness :
    PairAllDone 1 (pairRun 1 [0, 0, 0, 0, 0, 0] (pairInit 1)) ∧
    (pairRun 1 [0, 0, 0, 0, 0, 0] (pairInit 1)).a
      = (pairRun 1 [0, 0, 0, 0, 0, 0] (pairInit 1)).b :=
  ⟨by decide, pair_with_lock_invariant 1 1 [0, 0, 0, 0, 0, 0] (by decide)⟩

/-- A post leaves the count incremented by one, whatever the wake
choice does. -/
theorem semStep_rel_count {W : Nat} (s : SemState W) (n w : Nat) (hn : n < W) :
    (semStep s (SemAct.rel n w)).count = s.count + 1 := by
  simp only [semStep]
  rw [dif_pos hn]
  cases hwc : wakeChoice (semPostCore s ⟨n, hn⟩) w with
  | none => simp [semPostCore]
  | some u => simp [semPostCore]

/-- No single action drives the count below zero. -/
theorem semStep_count_nonneg {W : Nat} (s : SemState W) (a : SemAct)
    (h : 0 ≤ s.count) : 0 ≤ (semStep s a).count := by
  cases a with
  | acq n =>
    by_cases hn : n < W
    · simp only [semStep, dif_pos hn]
      rcases hth : s.th ⟨n, hn⟩ with _ | _ | _ | _ <;> simp only [hth]
      · by_cases hc : s.count = 0
        · rw [if_pos hc]
          exact h
        · rw [if_neg hc]
          show 0 ≤ s.count - 1
          omega
      · exact h
      · by_cases hc : s.count = 0
        · rw [if_pos hc]
          exact h
        · rw [if_neg hc]
          show 0 ≤ s.count - 1
          omega
      · exact h
    · simp only [semStep, dif_neg hn]
      exact h
  | rel n w =>
    by_cases hn : n < W
    · rw [semStep_rel_count s n w hn]
      omega
    · simp only [semStep, dif_neg hn]
      exact h

/-- The count never goes negative along any schedule. -/
theorem semRun_count_nonneg {W : Nat} (sched : List SemAct) (s : SemState W)
    (h : 0 ≤ s.count) : 0 ≤ (semRun sched s).count := by
  induction sched generalizing s with
  | nil => exact h
  | cons a rest ih => exact ih (semStep s a) (semStep_count_nonneg s a h)

/-- C2: one `semc_wait` critical section, run by a task entering the
wait or re-testing after a wake, parks the task (without touching the
count) exactly while the count is zero; any action that lowers a
non-negative count lowers it by exactly one and only from a positive
count; consequently, from any non-negative initial count, the count is
never negative after any interleaving of `semc_wait` and `semc_post`
sections. -/
theorem semc_wait_safety :
    (∀ (W : Nat) (s : SemState W) (n : Nat) (hn : n < W),
        (s.th ⟨n, hn⟩ = SemTh.idle ∨ s.th ⟨n, hn⟩ = SemTh.woken) →
        s.count = 0 →
        (semStep s (SemAct.acq n)).th ⟨n, hn⟩ = SemTh.sleeping ∧
        (semStep s (SemAct.acq n)).count = s.count) ∧
    (∀ (W : Nat) (s : SemState W) (a : SemAct), 0 ≤ s.count →
        (semStep s a).count < s.count →
        0 < s.count ∧ (semStep s a).count = s.count - 1) ∧
    (∀ (W : Nat) (c : Int) (sched : List SemAct), 0 ≤ c →
        0 ≤ (semRun sched (semInit W c)).count) := by
  refine ⟨?_, ?_, ?_⟩
  · intro W s n hn hth hc
    simp only [semStep]
    rw [dif_pos hn]
    rcases hth with hth | hth <;>
      simp [hth, hc]
  · intro W s a h0 hdec
    cases a with
    | acq n =>
      by_cases hn : n < W
      · simp only [semStep, dif_pos hn] at hdec ⊢
        rcases hth : s.th ⟨n, hn⟩ with _ | _ | _ | _ <;>
          simp only [hth] at hdec ⊢
        · by_cases hc : s.count = 0
          · rw [if_pos hc] at hdec
            exact absurd hdec (lt_irrefl _)
          · rw [if_neg hc] at hdec ⊢
            exact ⟨by omega, rfl⟩
        · exact absurd hdec (lt_irrefl _)
        · by_cases hc : s.count = 0
          · rw [if_pos hc] at hdec
            exact absurd hdec (lt_irrefl _)
          · rw [if_neg hc] at hdec ⊢
            exact ⟨by omega, rfl⟩
        · exact absurd hdec (lt_irrefl _)
      · simp only [semStep, dif_neg hn] at hdec
        exact absurd hdec (lt_irrefl _)
    | rel n w =>
      by_cases hn : n < W
      · rw [semStep_rel_count s n w hn] at hdec
        omega
      · simp only [semStep, dif_neg hn] at hdec
        exact absurd hdec (lt_irrefl _)
  · intro W c sched hc
    exact semRun_count_nonneg sched (semInit W c) hc

/-- Updating one task's state changes the holder count by the change
at that task. -/
theorem holders_update {W : Nat} (f : Fin W → SemTh) (t : Fin W) (b : SemTh) :
    (Finset.univ.filter fun u => Function.update f t b u = SemTh.holding).card
      + (if f t = SemTh.holding then 1 else 0)
    = (Finset.univ.filter fun u => f u = SemTh.holding).card
      + (if b = SemTh.holding then 1 else 0) := by
  rw [Finset.card_filter, Finset.card_filter]
  exact sum_comp_update (fun x => if x = SemTh.holding then 1 else 0) f t b

/-- A `semc_wait` section conserves `count + holders`. -/
theorem semStep_acq_conservation {W : Nat} (s : SemState W) (n : Nat) (N : Int)
    (h : s.count + (holders s : Int) = N) :
    (semStep s (SemAct.acq n)).count
      + (holders (semStep s (SemAct.acq n)) : Int) = N := by
  have h' : s.count + (((Finset.univ.filter fun u => s.th u = SemTh.holding).card : Nat) : Int)
      = N := h
  by_cases hn : n < W
  · simp only [semStep, dif_pos hn]
    rcases hth : s.th ⟨n, hn⟩ with _ | _ | _ | _ <;> simp only [hth]
    · by_cases hc : s.count = 0
      · rw [if_pos hc]
        have hu := holders_update s.th ⟨n, hn⟩ SemTh.sleeping
        rw [hth] at hu
        simp at hu
        show s.count + ((Finset.univ.filter
            fun u => Function.update s.th ⟨n, hn⟩ SemTh.sleeping u = SemTh.holding).card : Int)
          = N
        omega
      · rw [if_neg hc]
        have hu := holders_update s.th ⟨n, hn⟩ SemTh.holding
        rw [hth] at hu
        simp at hu
        show s.count - 1 + ((Finset.univ.filter
            fun u => Function.update s.th ⟨n, hn⟩ SemTh.holding u = SemTh.holding).card : Int)
          = N
        omega
    · exact h
    · by_cases hc : s.count = 0
      · rw [if_pos hc]
        have hu := holders_update s.th ⟨n, hn⟩ SemTh.sleeping
        rw [hth] at hu
        simp at hu
        show s.count + ((Finset.univ.filter
            fun u => Function.update s.th ⟨n, hn⟩ SemTh.sleeping u = SemTh.holding).card : Int)
          = N
        omega
      · rw [if_neg hc]
        have hu := holders_update s.th ⟨n, hn⟩ SemTh.holding
        rw [hth] at hu
        simp at hu
        show s.count - 1 + ((Finset.univ.filter
            fun u => Function.update s.th ⟨n, hn⟩ SemTh.holding u = SemTh.holding).card : Int)
          = N
        omega
    · exact h
  · simp only [semStep, dif_neg hn]
    exact h

/-- The quantity `count + holders` is conserved along any post-free schedule. -/
theorem semRun_acq_conservation {W : Nat} (sched : List SemAct) (s : SemState W)
    (N : Int) (hAcq : AcqOnly sched) (h : s.count + (holders s : Int) = N) :
    (semRun sched s).count + (holders (semRun sched s) : Int) = N := by
  induction sched generalizing s with
  | nil => exact h
  | cons a rest ih =>
    obtain ⟨n, rfl⟩ := hAcq a (List.mem_cons_self a rest)
    exact ih (semStep s (SemAct.acq n))
      (fun b hb => hAcq b (List.mem_cons_of_mem _ hb))
      (semStep_acq_conservation s n N h)

/-- Initially nobody holds a permit. -/
theorem holders_semInit (W : Nat) (c : Int) : holders (semInit W c) = 0 := by
  simp [holders, semInit]

/-- If anyone sleeps, the sleeper list starts with a sleeper. -/
theorem sleepers_head_sleeping {W : Nat} (s : SemState W) (u : Fin W)
    (hu : s.th u = SemTh.sleeping) :
    ∃ v, (sleepers s).head? = some v ∧ s.th v = SemTh.sleeping := by
  have hmem : u ∈ sleepers s := by
    simp [sleepers, List.mem_filter, hu]
  cases hl : sleepers s with
  | nil =>
    rw [hl] at hmem
    exact absurd hmem (List.not_mem_nil u)
  | cons v rest =>
    refine ⟨v, rfl, ?_⟩
    have hv : v ∈ sleepers s := by
      rw [hl]
      exact List.mem_cons_self v rest
    simpa using (List.mem_filter.mp hv).2

/-- The signal (`pthread_cond_signal` as modelled) always lands on a sleeper when
one exists. -/
theorem wakeChoice_sleeping {W : Nat} (s : SemState W) (w : Nat) (u : Fin W)
    (hu : s.th u = SemTh.sleeping) :
    ∃ v, wakeChoice s w = some v ∧ s.th v = SemTh.sleeping := by
  unfold wakeChoice
  by_cases hw : w < W
  · rw [dif_pos hw]
    by_cases hws : s.th ⟨w, hw⟩ = SemTh.sleeping
    · rw [if_pos hws]
      exact ⟨⟨w, hw⟩, rfl, hws⟩
    · rw [if_neg hws]
      exact sleepers_head_sleeping s u hu
  · rw [dif_neg hw]
    exact sleepers_head_sleeping s u hu

/-- The `count++` half of a post neither parks nor unparks anybody. -/
theorem semPostCore_sleeping {W : Nat} (s : SemState W) (t : Fin W) (u : Fin W) :
    ((semPostCore s t).th u = SemTh.sleeping ↔ s.th u = SemTh.sleeping) := by
  simp only [semPostCore]
  by_cases hut : u = t
  · subst hut
    rw [Function.update_same]
    by_cases hh : s.th u = SemTh.holding
    · rw [if_pos hh]
      simp [hh]
    · rw [if_neg hh]
  · rw [Function.update_noteq hut]

/-- A post wakes at least one sleeper whenever any task sleeps,
whatever the signal's scheduling choice `w`. -/
theorem semStep_rel_wakes {W : Nat} (s : SemState W) (n w : Nat) (hn : n < W)
    (hex : ∃ u, s.th u = SemTh.sleeping) :
    ∃ u, s.th u = SemTh.sleeping ∧
      (semStep s (SemAct.rel n w)).th u = SemTh.woken := by
  obtain ⟨u0, hu0⟩ := hex
  have hs' : (semPostCore s ⟨n, hn⟩).th u0 = SemTh.sleeping :=
    (semPostCore_sleeping s ⟨n, hn⟩ u0).mpr hu0
  obtain ⟨v, hv, hvs⟩ := wakeChoice_sleeping (semPostCore s ⟨n, hn⟩) w u0 hs'
  refine ⟨v, (semPostCore_sleeping s ⟨n, hn⟩ v).mp hvs, ?_⟩
  simp only [semStep, dif_pos hn, hv]
  simp

/-- A sleeping task signalled by a post is woken, and its next
`semc_wait` section then re-tests the predicate, takes the fresh
permit, and completes the acquire: `count` returns to its pre-release
value. -/
theorem semc_blocked_unblocks {W : Nat} (s : SemState W) (n m : Nat)
    (hn : n < W) (hm : m < W)
    (hsleep : s.th ⟨n, hn⟩ = SemTh.sleeping) (hc : 0 ≤ s.count) :
    (semStep s (SemAct.rel m n)).th ⟨n, hn⟩ = SemTh.woken ∧
    (semStep (semStep s (SemAct.rel m n)) (SemAct.acq n)).th ⟨n, hn⟩
      = SemTh.holding ∧
    (semStep (semStep s (SemAct.rel m n)) (SemAct.acq n)).count = s.count := by
  have hs' : (semPostCore s ⟨m, hm⟩).th ⟨n, hn⟩ = SemTh.sleeping :=
    (semPostCore_sleeping s ⟨m, hm⟩ ⟨n, hn⟩).mpr hsleep
  have hwc : wakeChoice (semPostCore s ⟨m, hm⟩) n = some ⟨n, hn⟩ := by
    unfold wakeChoice
    rw [dif_pos hn, if_pos hs']
  have h1 : semStep s (SemAct.rel m n)
      = { semPostCore s ⟨m, hm⟩ with
          th := Function.update (semPostCore s ⟨m, hm⟩).th ⟨n, hn⟩ SemTh.woken } := by
    simp only [semStep, dif_pos hm, hwc]
  have hth1 : (semStep s (SemAct.rel m n)).th ⟨n, hn⟩ = SemTh.woken := by
    rw [h1]
    simp
  have hcnt1 : (semStep s (SemAct.rel m n)).count = s.count + 1 :=
    semStep_rel_count s m n hm
  refine ⟨hth1, ?_⟩
  set s1 := semStep s (SemAct.rel m n) with hs1
  have hne : ¬s1.count = 0 := by omega
  constructor
  · simp only [semStep, dif_pos hn, hth1, if_neg hne]
    simp
  · simp only [semStep, dif_pos hn, hth1, if_neg hne]
    show s1.count - 1 = s.count
    omega

/-- Running `semc_wait` for tasks `0, …, k-1` from a fresh `N`-permit
semaphore: `k` permits are consumed, tasks `≥ k` are still outside,
and exactly `k` tasks hold permits. -/
theorem semAcqSeq (W N : Nat) (hWN : N ≤ W) :
    ∀ k, k ≤ N →
      (semRun ((List.range k).map SemAct.acq) (semInit W (N : Int))).count
          = (N : Int) - k ∧
      (∀ u : Fin W, k ≤ (u : Nat) →
        (semRun ((List.range k).map SemAct.acq) (semInit W (N : Int))).th u
          = SemTh.idle) ∧
      holders (semRun ((List.range k).map SemAct.acq) (semInit W (N : Int))) = k := by
  intro k
  induction k with
  | zero =>
    intro _
    refine ⟨by simp [semRun, semInit], fun u _ => rfl, holders_semInit W N⟩
  | succ k ih =>
    intro hk1
    obtain ⟨hcnt, hidle, hhold⟩ := ih (by omega)
    have hkW : k < W := by omega
    have happ : semRun ((List.range (k + 1)).map SemAct.acq) (semInit W (N : Int))
        = semStep (semRun ((List.range k).map SemAct.acq) (semInit W (N : Int)))
            (SemAct.acq k) := by
      rw [List.range_succ, List.map_append]
      exact List.foldl_append _ _ _ _
    set S := semRun ((List.range k).map SemAct.acq) (semInit W (N : Int)) with hS
    have hthk : S.th ⟨k, hkW⟩ = SemTh.idle := hidle ⟨k, hkW⟩ (le_refl k)
    have hcne : ¬S.count = 0 := by
      rw [hcnt]
      omega
    have hstep : semStep S (SemAct.acq k)
        = { S with count := S.count - 1,
                   th := Function.update S.th ⟨k, hkW⟩ SemTh.holding } := by
      simp only [semStep, dif_pos hkW, hthk, if_neg hcne]
    rw [happ, hstep]
    refine ⟨?_, ?_, ?_⟩
    · show S.count - 1 = (N : Int) - (k + 1)
      rw [hcnt]
      ring
    · intro u hu
      have hune : u ≠ ⟨k, hkW⟩ := by
        intro he
        rw [he] at hu
        simp at hu
      show Function.update S.th ⟨k, hkW⟩ SemTh.holding u = SemTh.idle
      rw [Function.update_noteq hune]
      exact hidle u (by omega)
    · have hu := holders_update S.th ⟨k, hkW⟩ SemTh.holding
      rw [hthk] at hu
      simp at hu
      show (Finset.univ.filter
          fun u => Function.update S.th ⟨k, hkW⟩ SemTh.holding u = SemTh.holding).card
        = k + 1
      have hh : (Finset.univ.filter fun u => S.th u = SemTh.holding).card = k := hhold
      omega

/-- C3: a semaphore initialized with `N` permits admits exactly `N`
concurrent holders before a further acquire blocks — under post-free
schedules the holder count never exceeds `N`, the schedule that runs
`semc_wait` for `N` distinct tasks leaves exactly `N` holders, and
from such a state an idle task's `semc_wait` parks it precisely when
`N` permits are held; a post increments the count by exactly one and
wakes at least one sleeper when any are waiting; a parked task that
the post's signal reaches is woken and its re-test then completes the
acquire. -/
theorem semc_admits_exactly_N :
    (∀ (W N : Nat) (sched : List SemAct), AcqOnly sched →
        (holders (semRun sched (semInit W (N : Int))) : Int) ≤ N) ∧
    (∀ W N : Nat, N ≤ W →
        holders (semRun ((List.range N).map SemAct.acq) (semInit W (N : Int))) = N) ∧
    (∀ (W N : Nat) (sched : List SemAct) (n : Nat) (hn : n < W),
        AcqOnly sched →
        (semRun sched (semInit W (N : Int))).th ⟨n, hn⟩ = SemTh.idle →
        ((semStep (semRun sched (semInit W (N : Int))) (SemAct.acq n)).th ⟨n, hn⟩
            = SemTh.sleeping
          ↔ (holders (semRun sched (semInit W (N : Int))) : Int) = N)) ∧
    (∀ (W : Nat) (s : SemState W) (n w : Nat), n < W →
        (semStep s (SemAct.rel n w)).count = s.count + 1) ∧
    (∀ (W : Nat) (s : SemState W) (n w : Nat), n < W →
        (∃ u, s.th u = SemTh.sleeping) →
        ∃ u, s.th u = SemTh.sleeping ∧
          (semStep s (SemAct.rel n w)).th u = SemTh.woken) ∧
    (∀ (W : Nat) (s : SemState W) (n m : Nat) (hn : n < W), m < W →
        s.th ⟨n, hn⟩ = SemTh.sleeping → 0 ≤ s.count →
        (semStep s (SemAct.rel m n)).th ⟨n, hn⟩ = SemTh.woken ∧
        (semStep (semStep s (SemAct.rel m n)) (SemAct.acq n)).th ⟨n, hn⟩
          = SemTh.holding) := by
  refine ⟨?_, ?_, ?_, ?_, ?_, ?_⟩
  · intro W N sched hAcq
    have hcons := semRun_acq_conservation sched (semInit W (N : Int)) (N : Int) hAcq
      (by rw [holders_semInit]; simp [semInit])
    have hnn := semRun_count_nonneg sched (semInit W (N : Int))
      (show (0 : Int) ≤ ((N : Int)) from Int.ofNat_nonneg N)
    omega
  · intro W N hWN
    exact (semAcqSeq W N hWN N (le_refl N)).2.2
  · intro W N sched n hn hAcq hidle
    have hcons := semRun_acq_conservation sched (semInit W (N : Int)) (N : Int) hAcq
      (by rw [holders_semInit]; simp [semInit])
    set S := semRun sched (semInit W (N : Int)) with hS
    by_cases hc : S.count = 0
    · have hsl : (semStep S (SemAct.acq n)).th ⟨n, hn⟩ = SemTh.sleeping := by
        simp only [semStep, dif_pos hn, hidle, if_pos hc]
        simp
      constructor
      · intro _
        omega
      · intro _
        exact hsl
    · have hho : (semStep S (SemAct.acq n)).th ⟨n, hn⟩ = SemTh.holding := by
        simp only [semStep, dif_pos hn, hidle, if_neg hc]
        simp
      constructor
      · intro hcontra
        rw [hho] at hcontra
        exact absurd hcontra (by simp)
      · intro hN
        omega
  · intro W s n w hn
    exact semStep_rel_count s n w hn
  · intro W s n w hn hex
    exact semStep_rel_wakes s n w hn hex
  · intro W s n m hn hm hsleep hc
    obtain ⟨h1, h2, _⟩ := semc_blocked_unblocks s n m hn hm hsleep hc
    exact ⟨h1, h2⟩

/-! ## Claim C5: which workers share the amplification sequence -/
/-- C5 counterexample: the unsynchronized invariant-pair worker does
NOT perform the same per-iteration event sequence as the
unsynchronized counter worker — already at iteration 0 (the pair
worker has no busy-wait and touches two fields), and again at
iteration 512 (the pair worker yields on its 0x1FF cadence, the
counter worker does not). -/
theorem touch_pair_iter_differs :
    touchPairIter 0 ≠ incNoLockIter 0 ∧
    touchPairIter 512 ≠ incNoLockIter 512 := by
  decide

/-- C5 (amended): the six-step amplified sequence is shared verbatim
by the two unsynchronized counter workers — `inc_no_lock` of
src/w6/thread_recitation.c and `increment_without_lock_stressed` of
src/w3/thread_demo.c produce identical event sequences at every
iteration; the unsynchronized invariant-pair worker follows the same
read / yield-cadence / modify / yield-cadence / write shape but with
its own cadences (every 512th and 1024th iteration), no busy-wait,
and doubled accesses for the two fields. -/
theorem amp_sequence_shared :
    ∀ i, incNoLockIter i = stressedIter i :=
  fun _ => rfl

/-! ## Claim C9: precondition violations in the formatters -/
/-- C9: with a zero-capacity destination, w3's `reentrant_upper`
(which lacks the `if (!outcap) return;` guard of the w6 version)
computes `n = 0 - 1` in `size_t`, wrapping to `2^64 - 1`, and so
stores through `2^64` cells of a buffer that may hold none — while the
guarded w6 `upper_reentrant` stores nothing. -/
theorem w3_reentrant_upper_zero_capacity :
    w3ReentrantUpperWriteCount [] 0 = 2 ^ 64 ∧
    w6ReentrantUpperWriteCount [] 0 = 0 := by
  constructor
  · show w3ReentrantUpperN 0 0 + 1 = 2 ^ 64
    rw [w3ReentrantUpperN, if_pos (le_refl 0)]
    norm_num [sizeTMod]
  · rfl

/-- C10 counterexample: the claim that a worker detecting a violation
completes strictly fewer than `K` update cycles fails when the first
violation is observed at the last iteration: with `K = 1` and the
check observing `(0, 1)`, the worker returns 1 having completed
exactly 1 = `K` cycles. -/
theorem pair_worker_detects_at_last_iteration :
    pairWorker 1 (fun _ => ((0 : Int), (1 : Int))) = (1, 1) ∧
    ¬((pairWorker 1 (fun _ => ((0 : Int), (1 : Int)))).1 < 1) := by
  constructor
  · rfl
  · show ¬(1 < 1)
    omega

/-- Detection in the middle of the loop: if the oracle first shows a
violation `d` iterations after `start` (with enough iterations left),
the worker returns `(start + d + 1, 1)` — it stops right there. -/
theorem pairWorkerGo_detect (chk : Nat → Int × Int) :
    ∀ (rem start d : Nat), d < rem →
      (chk (start + d)).1 ≠ (chk (start + d)).2 →
      (∀ j, j < d → (chk (start + j)).1 = (chk (start + j)).2) →
      pairWorkerGo chk start rem = (start + d + 1, 1) := by
  intro rem
  induction rem with
  | zero =>
    intro start d hd
    omega
  | succ rem ih =>
    intro start d hd hviol hok
    cases d with
    | zero =>
      simp only [Nat.add_zero] at hviol
      show (if (chk start).1 ≠ (chk start).2 then (start + 1, 1)
            else pairWorkerGo chk (start + 1) rem) = (start + 0 + 1, 1)
      rw [if_pos hviol]
    | succ d =>
      have h0 : (chk (start + 0)).1 = (chk (start + 0)).2 := hok 0 (by omega)
      simp only [Nat.add_zero] at h0
      show (if (chk start).1 ≠ (chk start).2 then (start + 1, 1)
            else pairWorkerGo chk (start + 1) rem) = (start + (d + 1) + 1, 1)
      rw [if_neg (by simpa using h0)]
      have hres := ih (start + 1) d (by omega)
        (by
          have : start + 1 + d = start + (d + 1) := by omega
          rw [this]
          exact hviol)
        (by
          intro j hj
          have : start + 1 + j = start + (j + 1) := by omega
          rw [this]
          exact hok (j + 1) (by omega))
      rw [hres]
      congr 1
      omega

/-- The join loop records a violation exactly when some worker
returned 1. -/
theorem bonusABroke_correct (rets : List Nat) :
    bonusABroke rets = 1 ↔ 1 ∈ rets := by
  have haux : ∀ (l : List Nat) (b : Nat),
      l.foldl (fun broke r => if r = 1 then 1 else broke) b = 1 ↔ (b = 1 ∨ 1 ∈ l) := by
    intro l
    induction l with
    | nil => simp
    | cons r rest ih =>
      intro b
      rw [List.foldl_cons, ih]
      by_cases hr : r = 1
      · subst hr
        simp
      · rw [if_neg hr]
        constructor
        · rintro (hb | hm)
          · exact Or.inl hb
          · exact Or.inr (List.mem_cons_of_mem r hm)
        · rintro (hb | hm)
          · exact Or.inl hb
          · rcases List.mem_cons.mp hm with he | hm
            · exact absurd he.symm hr
            · exact Or.inr hm
  rw [bonusABroke, haux]
  simp

/-- C10 (amended): the worker returns the violation indicator 1
immediately — if iteration `i < K` is the first whose post-write check
observes `a ≠ b`, the worker completes exactly `i + 1 ≤ K` update
cycles (at most, not strictly fewer than, `K`) and returns 1; and the
harness's join loop records `broke = 1` exactly when some worker
returned 1. -/
theorem pair_worker_early_return (K : Nat) (chk : Nat → Int × Int) (i : Nat)
    (hi : i < K) (hviol : (chk i).1 ≠ (chk i).2)
    (hok : ∀ j, j < i → (chk j).1 = (chk j).2) :
    pairWorker K chk = (i + 1, 1) ∧ i + 1 ≤ K ∧
    (∀ rets : List Nat, bonusABroke rets = 1 ↔ 1 ∈ rets) := by
  refine ⟨?_, by omega, bonusABroke_correct⟩
  have := pairWorkerGo_detect chk K 0 i hi (by simpa using hviol)
    (by
      intro j hj
      simpa using hok j hj)
  simpa using this

theorem pair_worker_early_return_witness :
    pairWorker 3 (fun j => if j = 1 then ((0 : Int), (1 : Int)) else (0, 0))
      = (2, 1) ∧ 2 ≤ 3 :=
  have h := pair_worker_early_return 3
    (fun j => if j = 1 then ((0 : Int), (1 : Int)) else (0, 0)) 1
    (by omega) (by decide)
    (by
      intro j hj
      interval_cases j
      · decide)
  ⟨h.1, h.2.1⟩

/-! ## Claims C7, C8: formatter correctness -/
/-- Below the surrogate range, `Char.ofNat` round-trips through
`toNat`. -/
theorem toNat_charOfNat (k : Nat) (h : k < 55296) : (Char.ofNat k).toNat = k := by
  have hv : k.isValidChar := Or.inl h
  simp [Char.ofNat, hv, Char.ofNatAux, Char.toNat, UInt32.toNat, BitVec.toNat_ofNat]

/-- Uppercasing never produces a NUL from a non-NUL character. -/
theorem cToUpper_ne_nulChar (c : Char) (hc : c ≠ nulChar) : cToUpper c ≠ nulChar := by
  unfold cToUpper
  by_cases h : 'a' ≤ c ∧ c ≤ 'z'
  · rw [if_pos h]
    intro he
    have h97 : 97 ≤ c.toNat := h.1
    have h122 : c.toNat ≤ 122 := h.2
    have hr : (Char.ofNat (c.toNat - 32)).toNat = c.toNat - 32 :=
      toNat_charOfNat _ (by omega)
    rw [he] at hr
    have h0 : nulChar.toNat = 0 := by decide
    omega
  · rw [if_neg h]
    exact hc

/-- Peeling one write off the formatter loop. -/
theorem upperLoop_succ (s : List Char) (n : Nat) (out : List Char) :
    upperLoop s (n + 1) out
      = (upperLoop s n out).set n (cToUpper (s.getD n nulChar)) := by
  unfold upperLoop
  rw [List.range_succ, List.foldl_append]
  rfl

/-- The formatter loop writes the uppercased prefix and leaves the
tail of the buffer alone. -/
theorem upperLoop_spec (s out : List Char) :
    ∀ n, n ≤ s.length → n ≤ out.length →
      upperLoop s n out = (s.take n).map cToUpper ++ out.drop n := by
  intro n
  induction n with
  | zero =>
    intro _ _
    simp [upperLoop]
  | succ n ih =>
    intro hs hout
    rw [upperLoop_succ, ih (by omega) (by omega)]
    have hlen : ((s.take n).map cToUpper).length = n := by
      simp [List.length_take]
      omega
    rw [List.set_append_right _ _ (by omega)]
    rw [hlen, Nat.sub_self]
    obtain ⟨c, hdrop⟩ : ∃ c, out.drop n = c :: out.drop (n + 1) :=
      ⟨_, List.drop_eq_getElem_cons (by omega)⟩
    rw [hdrop]
    show (s.take n).map cToUpper
        ++ (cToUpper (s.getD n nulChar) :: out.drop (n + 1))
      = (s.take (n + 1)).map cToUpper ++ out.drop (n + 1)
    rw [List.take_succ]
    obtain ⟨x, hget⟩ : ∃ x, s[n]? = some x :=
      ⟨_, List.getElem?_eq_getElem (by omega)⟩
    rw [hget]
    have hgetD : s.getD n nulChar = x := by
      simp [List.getD, List.get?_eq_getElem?, hget]
    rw [hgetD]
    simp only [Option.toList_some, List.map_append, List.map_cons, List.map_nil,
      List.cons_append, List.nil_append, List.append_assoc]

/-- The `n` computed by the guarded formatter is
`min (strlen s) (outcap - 1)`. -/
theorem upperTrunc_eq_min (slen outcap : Nat) (h : 0 < outcap) :
    (if slen ≥ outcap then outcap - 1 else slen) = min slen (outcap - 1) := by
  by_cases hs : slen ≥ outcap
  · rw [if_pos hs]
    omega
  · rw [if_neg hs]
    omega

/-- Closed form of the guarded reentrant formatter: the uppercased
truncated copy, the terminator, then the untouched tail of the
caller's buffer. -/
theorem upper_reentrant_eq (s out : List Char) (outcap : Nat)
    (hcap : 0 < outcap) (hout : outcap ≤ out.length) :
    upper_reentrant s out outcap
      = (s.take (min s.length (outcap - 1))).map cToUpper
          ++ nulChar :: out.drop (min s.length (outcap - 1) + 1) := by
  unfold upper_reentrant
  rw [if_neg (by omega)]
  show (upperLoop s (if s.length ≥ outcap then outcap - 1 else s.length) out).set
      (if s.length ≥ outcap then outcap - 1 else s.length) nulChar = _
  rw [upperTrunc_eq_min s.length outcap hcap]
  have hn1 : min s.length (outcap - 1) ≤ s.length := by omega
  have hn2 : min s.length (outcap - 1) ≤ out.length := by omega
  rw [upperLoop_spec s out _ hn1 hn2]
  have hlen : ((s.take (min s.length (outcap - 1))).map cToUpper).length
      = min s.length (outcap - 1) := by
    simp [List.length_take]
  rw [List.set_append_right _ _ (by omega)]
  rw [hlen, Nat.sub_self]
  obtain ⟨c, hdrop⟩ : ∃ c, out.drop (min s.length (outcap - 1))
      = c :: out.drop (min s.length (outcap - 1) + 1) :=
    ⟨_, List.drop_eq_getElem_cons (by omega)⟩
  rw [hdrop]
  rfl

/-- Reading a C string back out of `prefix ++ NUL ++ anything` yields
exactly the prefix, when the prefix has no NUL. -/
theorem cString_append_nul (l1 l2 : List Char) (h : ∀ c ∈ l1, c ≠ nulChar) :
    cString (l1 ++ nulChar :: l2) = l1 := by
  induction l1 with
  | nil =>
    simp [cString, List.takeWhile]
  | cons c rest ih =>
    have hc : c ≠ nulChar := h c (List.mem_cons_self c rest)
    have hrest : ∀ x ∈ rest, x ≠ nulChar :=
      fun x hx => h x (List.mem_cons_of_mem c hx)
    show cString (c :: (rest ++ nulChar :: l2)) = c :: rest
    unfold cString
    rw [List.takeWhile_cons]
    simp only [hc, decide_eq_true_eq]
    rw [if_pos (by simpa using hc)]
    have := ih hrest
    unfold cString at this
    rw [this]

/-- C7: for every input string (no interior NUL), every caller buffer
of capacity `outcap > 0`, and every input length — including 0 and
lengths ≥ `outcap` — the guarded reentrant formatter leaves in the
destination exactly the upper-cased copy of `s` truncated to at most
`outcap - 1` characters, NUL-terminated in bounds; the buffer keeps
its size and every cell past the terminator keeps its old contents,
so the call touches nothing outside the destination and two calls on
distinct destinations cannot contaminate each other. -/
theorem upper_reentrant_correct (s out : List Char) (outcap : Nat)
    (hcap : 0 < outcap) (hout : out.length = outcap) (hs : nulChar ∉ s) :
    cString (upper_reentrant s out outcap) = (s.take (outcap - 1)).map cToUpper ∧
    (upper_reentrant s out outcap).length = out.length ∧
    (upper_reentrant s out outcap).drop (min s.length (outcap - 1) + 1)
      = out.drop (min s.length (outcap - 1) + 1) := by
  have heq := upper_reentrant_eq s out outcap hcap (by omega)
  have htake : s.take (min s.length (outcap - 1)) = s.take (outcap - 1) := by
    by_cases hsl : s.length ≤ outcap - 1
    · rw [min_eq_left hsl, List.take_of_length_le hsl,
        List.take_of_length_le (by omega)]
    · rw [min_eq_right (by omega)]
  refine ⟨?_, ?_, ?_⟩
  · rw [heq, cString_append_nul, htake]
    intro c hcm
    obtain ⟨x, hx, rfl⟩ := List.mem_map.mp hcm
    exact cToUpper_ne_nulChar x (fun he => hs (he ▸ List.mem_of_mem_take hx))
  · rw [heq]
    simp [List.length_take]
    omega
  · rw [heq]
    have hlen : ((s.take (min s.length (outcap - 1))).map cToUpper).length
        = min s.length (outcap - 1) := by
      simp [List.length_take]
    have h1 : min s.length (outcap - 1) + 1
        = ((s.take (min s.length (outcap - 1))).map cToUpper).length + 1 := by
      omega
    rw [h1, List.drop_append 1]
    rfl

theorem upper_reentrant_correct_witness :
    (0 < 2 ∧ nulChar ∉ (['h', 'i', 'q'] : List Char)) ∧
    cString (upper_reentrant ['h', 'i', 'q'] [' ', ' '] 2)
      = ((['h', 'i', 'q'] : List Char).take (2 - 1)).map cToUpper :=
  ⟨⟨by decide, by decide⟩,
   (upper_reentrant_correct ['h', 'i', 'q'] [' ', ' '] 2
      (by decide) rfl (by decide)).1⟩

/-- C8: two sequential calls of the non-reentrant formatter, first on
"hello" and then on "world", hand back the same pointer — the address
of the one static buffer — and after the second call the C string in
that buffer is exactly the upper-cased "world": the second call's
result supersedes the first's storage. -/
theorem upper_not_reentrant_last_write_wins :
    (upper_not_reentrant ['h', 'e', 'l', 'l', 'o'] staticBufInit).1
      = (upper_not_reentrant ['w', 'o', 'r', 'l', 'd']
          (upper_not_reentrant ['h', 'e', 'l', 'l', 'o'] staticBufInit).2).1 ∧
    cString (upper_not_reentrant ['w', 'o', 'r', 'l', 'd']
        (upper_not_reentrant ['h', 'e', 'l', 'l', 'o'] staticBufInit).2).2
      = ['W', 'O', 'R', 'L', 'D'] := by
  constructor
  · rfl
  · decide

end ThreadHarness
